/-
Verification of the eventsrv proxy (components/eventsrv/src/lib.rs).

The proxy pulls EventEnvelope messages from a PULL socket, caches the most
recent raw bytes per service and per ring member, rebroadcasts the bytes on
an XPUB socket, and on a new subscription replays a deduplicated snapshot of
both caches.  This file is a shallow embedding of that loop:

* the two `HashMap` caches become association lists with replace-on-key
  insertion (`cacheInsert`);
* the body of the inbound branch becomes `processPublish`, the outbound
  (subscription event) branch becomes `processControl`, and one full loop
  iteration becomes `serveStep`;
* the protobuf codec (`mod message`, generated code not among the sources)
  is kept abstract: every operation takes a decoder
  `dec : Bytes → Option Envelope`, where `none` is a parse failure, which
  the source meets with `.unwrap()`;
* a run of the inbound branch over a message sequence is `runPublishes`,
  returning `none` when the process aborted on a parse failure.

The theorems characterise the caches after a run (`lastSvc` / `lastMem`),
bound and characterise the snapshot, and record where the source's
`unwrap` calls abort the process.
-/
import Mathlib

/-- Raw wire bytes (Rust `Vec<u8>`); byte range is irrelevant to the loop. -/
abbrev Bytes := List Nat

/-- Modelled from the spec: the Event Envelope wire entity with fields
`member_id`, `service`, `timestamp`, `payload`.  The protobuf-generated
codec is not among the sources, so decoding stays an abstract parameter
`dec : Bytes → Option Envelope` of every operation. -/
structure Envelope where
  member_id : String
  service : String
  timestamp : Int
  payload : Bytes

deriving instance DecidableEq for Envelope

/-- `HashMap::insert` on an association list: replace the value of an
existing key in place, otherwise add a fresh entry. -/
def cacheInsert (k : String) (v : α) : List (String × α) → List (String × α)
  | [] => [(k, v)]
  | (k1, v1) :: rest =>
      if k1 = k then (k, v) :: rest else (k1, v1) :: cacheInsert k v rest

/-- `HashMap::get` on an association list. -/
def cacheLookup (k : String) : List (String × α) → Option α
  | [] => none
  | (k1, v1) :: rest => if k1 = k then some v1 else cacheLookup k rest

/-- The keys of an association list. -/
def cacheKeys (c : List (String × α)) : List String := c.map Prod.fst

/-- The mutable state of the serving loop: `service_cache` maps a service
name to the last publisher's member id and raw bytes; `member_cache` maps a
member id to its last service and raw bytes. -/
structure ProxyState where
  service_cache : List (String × (String × Bytes))
  member_cache : List (String × (String × Bytes))

deriving instance DecidableEq for ProxyState

/-- Both caches start empty at process start. -/
def emptyState : ProxyState := ⟨[], []⟩

/-- Outcome of the inbound branch: `panic` is the decode `unwrap` aborting
the process, `dropped` is the empty-service `continue`, `sent` carries the
new state and the bytes sent on the XPUB socket. -/
inductive PubResult where
  | panic : PubResult
  | dropped : ProxyState → PubResult
  | sent : ProxyState → Bytes → PubResult

deriving instance DecidableEq for PubResult

/-- The two cache insertions performed for one valid envelope:
`service_cache.insert(service, (member_id, bytes))` then
`member_cache.insert(member_id, (service, bytes))`. -/
def pubUpdate (e : Envelope) (bytes : Bytes) (st : ProxyState) : ProxyState :=
  ⟨cacheInsert e.service (e.member_id, bytes) st.service_cache,
   cacheInsert e.member_id (e.service, bytes) st.member_cache⟩

/-- The inbound (`poll_items[0]`) branch of `proxy`:
`parse_from_bytes::<EventEnvelope>(&bytes).unwrap()` aborts on a parse
failure; an empty `service` is logged and skipped before any cache write;
otherwise both caches are updated and the identical raw bytes are sent. -/
def processPublish (dec : Bytes → Option Envelope) (st : ProxyState) (bytes : Bytes) : PubResult :=
  match dec bytes with
  | none => .panic
  | some event =>
      if event.service = "" then .dropped st
      else .sent (pubUpdate event bytes st) bytes

/-- The member ids recorded in the service cache; after the first snapshot
loop this is exactly the `members_encountered` set. -/
def membersEncountered (st : ProxyState) : List String :=
  st.service_cache.map (fun x => x.2.1)

/-- The snapshot sent to a new subscriber: the bytes of every service-cache
entry, then the bytes of every member-cache entry whose member id was not
already covered by a service-cache entry. -/
def snapshotMessages (st : ProxyState) : List Bytes :=
  st.service_cache.map (fun x => x.2.2) ++
    (st.member_cache.filter
      (fun x => !((membersEncountered st).contains x.1))).map (fun x => x.2.2)

/-- Outcome of the outbound branch: `panic` is `event[0]` on an empty
record, `ignored` is any first byte other than 1, `snapshot` carries the
messages sent.  The caches are only read, never written. -/
inductive CtrlResult where
  | panic : CtrlResult
  | ignored : CtrlResult
  | snapshot : List Bytes → CtrlResult

deriving instance DecidableEq for CtrlResult

/-- The outbound (`poll_items[1]`) branch of `proxy`: the control record is
one action byte followed by the topic; `event[0]` on an empty record is an
out-of-bounds index, which aborts the process. -/
def processControl (st : ProxyState) (event : Bytes) : CtrlResult :=
  match event with
  | [] => .panic
  | b :: _ => if b = 1 then .snapshot (snapshotMessages st) else .ignored

/-- Outcome of one loop iteration: continue with a new state and the bytes
sent during the iteration, break out of the loop (failed `zmq::poll`), or
abort the process (a failed `unwrap` or out-of-bounds index). -/
inductive StepOutcome where
  | next : ProxyState → List Bytes → StepOutcome
  | exitLoop : StepOutcome
  | panicked : StepOutcome

deriving instance DecidableEq for StepOutcome

/-- The outbound branch as run after the inbound branch of the same
iteration, accumulating the bytes already sent. -/
def afterControl (st : ProxyState) (sent : List Bytes) : Option Bytes → StepOutcome
  | none => .next st sent
  | some ev =>
      match processControl st ev with
      | .panic => .panicked
      | .ignored => .next st sent
      | .snapshot out => .next st (sent ++ out)

/-- One iteration of the serving loop: a failed `zmq::poll` breaks the
loop; otherwise the inbound branch runs first if a message is pending, then
the outbound branch if a control record is pending. -/
def serveStep (dec : Bytes → Option Envelope) (st : ProxyState) (pollOk : Bool)
    (inMsg ctrlMsg : Option Bytes) : StepOutcome :=
  if !pollOk then .exitLoop
  else
    match inMsg with
    | none => afterControl st [] ctrlMsg
    | some bytes =>
        match processPublish dec st bytes with
        | .panic => .panicked
        | .dropped st1 => afterControl st1 [] ctrlMsg
        | .sent st1 out => afterControl st1 [out] ctrlMsg

/-- Outcome of one transport operation as surfaced by the zmq binding's
`Result`: `ok` carries the received bytes, `err` is a surfaced transport
error.  Every such `Result` in the source is met with `.unwrap()`. -/
inductive TransportResult where
  | ok : Bytes → TransportResult
  | err : TransportResult

deriving instance DecidableEq for TransportResult

/-- The inbound branch with its two transport operations explicit:
`pull_sock.recv_bytes(0).unwrap()` aborts on a surfaced recv error, and
`xpub_sock.send(&bytes, 0).unwrap()` aborts on a surfaced send error
(`sendOk` tells which sends succeed); the caches are updated before the
send is attempted. -/
def processPublishT (dec : Bytes → Option Envelope) (sendOk : Bytes → Bool)
    (st : ProxyState) (recvResult : TransportResult) : PubResult :=
  match recvResult with
  | .err => .panic
  | .ok bytes =>
      match dec bytes with
      | none => .panic
      | some event =>
          if event.service = "" then .dropped st
          else
            if sendOk bytes then .sent (pubUpdate event bytes st) bytes
            else .panic

/-- The outbound branch with its transport operations explicit:
`xpub_sock.recv_bytes(0).unwrap()` aborts on a surfaced recv error, and
each snapshot `xpub_sock.send(&message, 0).unwrap()` aborts on a surfaced
send error. -/
def processControlT (sendOk : Bytes → Bool) (st : ProxyState)
    (recvResult : TransportResult) : CtrlResult :=
  match recvResult with
  | .err => .panic
  | .ok event =>
      match event with
      | [] => .panic
      | b :: _ =>
          if b = 1 then
            if (snapshotMessages st).all sendOk then .snapshot (snapshotMessages st)
            else .panic
          else .ignored

/-- The outbound branch with explicit transport, as run after the inbound
branch of the same iteration. -/
def afterControlT (sendOk : Bytes → Bool) (st : ProxyState) (sent : List Bytes) :
    Option TransportResult → StepOutcome
  | none => .next st sent
  | some r =>
      match processControlT sendOk st r with
      | .panic => .panicked
      | .ignored => .next st sent
      | .snapshot out => .next st (sent ++ out)

/-- One iteration of the serving loop with the transport outcomes of its
recv and send operations abstracted, the way `dec` abstracts the protobuf
parser: `inEvt` and `ctrlEvt` are the pending recv outcomes, `sendOk` the
per-message send outcomes. -/
def serveStepT (dec : Bytes → Option Envelope) (sendOk : Bytes → Bool)
    (st : ProxyState) (pollOk : Bool)
    (inEvt ctrlEvt : Option TransportResult) : StepOutcome :=
  if !pollOk then .exitLoop
  else
    match inEvt with
    | none => afterControlT sendOk st [] ctrlEvt
    | some r =>
        match processPublishT dec sendOk st r with
        | .panic => .panicked
        | .dropped st1 => afterControlT sendOk st1 [] ctrlEvt
        | .sent st1 out => afterControlT sendOk st1 [out] ctrlEvt

/-- A run of the inbound branch over a message sequence; `none` means the
process aborted on a parse failure. -/
def runPublishes (dec : Bytes → Option Envelope) (st : ProxyState) : List Bytes → Option ProxyState
  | [] => some st
  | b :: rest =>
      match processPublish dec st b with
      | .panic => none
      | .dropped st1 => runPublishes dec st1 rest
      | .sent st1 _ => runPublishes dec st1 rest

/-- Left-biased choice on `Option`, used to state rightmost-write-wins. -/
def orO (a b : Option α) : Option α :=
  match a with
  | some x => some x
  | none => b

/-- The service-cache write for service `s` performed by one message, if
any: the message decodes, its service is `s` and non-empty. -/
def writeSvc (dec : Bytes → Option Envelope) (b : Bytes) (s : String) : Option (String × Bytes) :=
  match dec b with
  | none => none
  | some e => if e.service = s ∧ e.service ≠ "" then some (e.member_id, b) else none

/-- The member-cache write for member `m` performed by one message, if
any. -/
def writeMem (dec : Bytes → Option Envelope) (b : Bytes) (m : String) : Option (String × Bytes) :=
  match dec b with
  | none => none
  | some e => if e.member_id = m ∧ e.service ≠ "" then some (e.service, b) else none

/-- The last service-cache write for `s` over a message sequence (later
messages take precedence). -/
def lastSvc (dec : Bytes → Option Envelope) (pubs : List Bytes) (s : String) : Option (String × Bytes) :=
  match pubs with
  | [] => none
  | b :: rest => orO (lastSvc dec rest s) (writeSvc dec b s)

/-- The last member-cache write for `m` over a message sequence. -/
def lastMem (dec : Bytes → Option Envelope) (pubs : List Bytes) (m : String) : Option (String × Bytes) :=
  match pubs with
  | [] => none
  | b :: rest => orO (lastMem dec rest m) (writeMem dec b m)

/-- A message is a valid publish when it decodes and its service is
non-empty. -/
def validPub (dec : Bytes → Option Envelope) (b : Bytes) : Bool :=
  match dec b with
  | none => false
  | some e => !(e.service == "")

/-- The message decodes and was published by member `m`. -/
def isPubBy (dec : Bytes → Option Envelope) (m : String) (b : Bytes) : Bool :=
  match dec b with
  | none => false
  | some e => e.member_id == m

/-- The message decodes and targets service `s`. -/
def isPubTo (dec : Bytes → Option Envelope) (s : String) (b : Bytes) : Bool :=
  match dec b with
  | none => false
  | some e => e.service == s

/-- The suffix of the sequence strictly after member `m`'s last message. -/
def afterLastPubOf (dec : Bytes → Option Envelope) (m : String) (pubs : List Bytes) : List Bytes :=
  (pubs.reverse.takeWhile (fun b => !isPubBy dec m b)).reverse

/-- The distinct services named by the decodable messages of a sequence. -/
def distinctServices (dec : Bytes → Option Envelope) (pubs : List Bytes) : List String :=
  (pubs.filterMap (fun b => (dec b).map Envelope.service)).dedup

/-- The distinct members naming the decodable messages of a sequence. -/
def distinctMembers (dec : Bytes → Option Envelope) (pubs : List Bytes) : List String :=
  (pubs.filterMap (fun b => (dec b).map Envelope.member_id)).dedup

/-- Every service-cache entry stores bytes that decode to an envelope whose
service is the entry's key and whose member is the recorded member. -/
def svcCoherent (dec : Bytes → Option Envelope) (st : ProxyState) : Prop :=
  ∀ x ∈ st.service_cache,
    ∃ e, dec x.2.2 = some e ∧ e.service = x.1 ∧ e.member_id = x.2.1 ∧ e.service ≠ ""

/-- Every member-cache entry stores bytes that decode to an envelope whose
member is the entry's key and whose service is the recorded service. -/
def memCoherent (dec : Bytes → Option Envelope) (st : ProxyState) : Prop :=
  ∀ x ∈ st.member_cache,
    ∃ e, dec x.2.2 = some e ∧ e.member_id = x.1 ∧ e.service = x.2.1 ∧ e.service ≠ ""

/-- A small concrete decoder used for concrete runs: five fixed byte
strings decode, everything else fails to parse. -/
def sampleDec : Bytes → Option Envelope
  | [1] => some ⟨"m1", "A", 1, []⟩
  | [2] => some ⟨"m1", "s", 2, []⟩
  | [3] => some ⟨"m2", "s", 3, []⟩
  | [4] => some ⟨"m1", "redis", 1, []⟩
  | [7] => some ⟨"m9", "", 5, []⟩
  | _ => none

/-- C1: the claim says a message that fails to decode yields a recoverable
decode error and the serving loop continues.  In the source the parse
result is met with `.unwrap()`, so on any inbound message whose bytes do
not decode the process aborts: the loop iteration ends in `panicked`, not
in a `next` state. -/
theorem c1_decode_unwrap_aborts (dec : Bytes → Option Envelope) (st : ProxyState)
    (ctrlMsg : Option Bytes) (bytes : Bytes) (h : dec bytes = none) :
    serveStep dec st true (some bytes) ctrlMsg = .panicked := by
  simp [serveStep, processPublish, h]

/-- C1 witness: the concrete undecodable message `[99]` aborts the loop. -/
theorem c1_decode_unwrap_aborts_witness :
    serveStep sampleDec emptyState true (some [99]) none = .panicked :=
  c1_decode_unwrap_aborts sampleDec emptyState none [99] (by decide)

/-- C3 counterexample: the claim says an empty-service publish still
replaces the `MemberCache` entry for the envelope's member.  Message `[7]`
decodes to member `m9` with empty service; processing it from the empty
state is a `dropped` with the state unchanged, and the member cache holds
no entry for `m9` (the claim demands `some ("", [7])`). -/
theorem c3_counterexample :
    processPublish sampleDec emptyState [7] = PubResult.dropped emptyState ∧
    cacheLookup "m9" emptyState.member_cache = none := by
  decide

/-- C3 amended: a decoded envelope with empty service leaves both caches
untouched (the whole state is unchanged) and sends nothing outbound. -/
theorem c3_empty_service_updates_nothing (dec : Bytes → Option Envelope)
    (st : ProxyState) (b : Bytes) (e : Envelope)
    (h1 : dec b = some e) (h2 : e.service = "") :
    processPublish dec st b = .dropped st := by
  simp [processPublish, h1, h2]

/-- C3 amended witness: the empty-service message `[7]` from the empty
state. -/
theorem c3_empty_service_updates_nothing_witness :
    processPublish sampleDec emptyState [7] = .dropped emptyState :=
  c3_empty_service_updates_nothing sampleDec emptyState [7] ⟨"m9", "", 5, []⟩
    (by decide) rfl

/-- C4: a decoded envelope with empty service leaves both caches unchanged
and is not rebroadcast: the loop iteration continues with the same state
and an empty list of sent messages. -/
theorem c4_empty_service_frame (dec : Bytes → Option Envelope)
    (st : ProxyState) (b : Bytes) (e : Envelope)
    (h1 : dec b = some e) (h2 : e.service = "") :
    serveStep dec st true (some b) none = .next st [] := by
  simp [serveStep, processPublish, h1, h2, afterControl]

/-- C4 witness: the empty-service message `[7]` from the empty state. -/
theorem c4_empty_service_frame_witness :
    serveStep sampleDec emptyState true (some [7]) none = .next emptyState [] :=
  c4_empty_service_frame sampleDec emptyState [7] ⟨"m9", "", 5, []⟩ (by decide) rfl

/-- C6: a decoded envelope with non-empty service updates the service
cache and then the member cache with the raw message bytes, and the loop
iteration sends exactly those byte-identical bytes outbound. -/
theorem c6_rebroadcast_fidelity (dec : Bytes → Option Envelope)
    (st : ProxyState) (b : Bytes) (e : Envelope)
    (h1 : dec b = some e) (h2 : e.service ≠ "") :
    serveStep dec st true (some b) none =
      .next ⟨cacheInsert e.service (e.member_id, b) st.service_cache,
             cacheInsert e.member_id (e.service, b) st.member_cache⟩ [b] := by
  simp [serveStep, processPublish, h1, h2, afterControl, pubUpdate]

/-- C6 witness: message `[1]` (member `m1`, service `A`) from the empty
state is cached in both caches and sent on byte-for-byte. -/
theorem c6_rebroadcast_fidelity_witness :
    serveStep sampleDec emptyState true (some [1]) none =
      .next ⟨[("A", ("m1", [1]))], [("m1", ("A", [1]))]⟩ [[1]] :=
  c6_rebroadcast_fidelity sampleDec emptyState [1] ⟨"m1", "A", 1, []⟩
    (by decide) (by decide)

/-- C9: a control record with action byte 0 (unsubscribe) is ignored: the
loop iteration sends nothing and continues with the same state (the
outbound branch never writes the caches). -/
theorem c9_unsubscribe_ignored (dec : Bytes → Option Envelope)
    (st : ProxyState) (topicBytes : Bytes) :
    serveStep dec st true none (some (0 :: topicBytes)) = .next st [] ∧
      processControl st (0 :: topicBytes) = .ignored := by
  simp [serveStep, afterControl, processControl]

/-- C10: an empty control record makes the dispatch loop index `event[0]`
out of bounds, so the iteration aborts the process instead of ignoring
the record. -/
theorem c10_empty_control_aborts (dec : Bytes → Option Envelope) (st : ProxyState) :
    serveStep dec st true none (some []) = .panicked ∧
      processControl st [] = .panic := by
  simp [serveStep, afterControl, processControl]


@[simp] theorem orO_none_left (b : Option α) : orO none b = b := rfl

@[simp] theorem orO_some_left (x : α) (b : Option α) : orO (some x) b = some x := rfl

@[simp] theorem orO_none_right (a : Option α) : orO a none = a := by
  cases a <;> rfl

theorem orO_assoc (a b c : Option α) : orO (orO a b) c = orO a (orO b c) := by
  cases a <;> rfl

theorem cacheLookup_insert (k q : String) (v : α) (c : List (String × α)) :
    cacheLookup q (cacheInsert k v c) = if k = q then some v else cacheLookup q c := by
  induction c with
  | nil => by_cases h : k = q <;> simp [cacheInsert, cacheLookup, h]
  | cons hd tl ih =>
      obtain ⟨k1, v1⟩ := hd
      by_cases h1 : k1 = k <;> by_cases h2 : k = q <;> by_cases h3 : k1 = q <;>
        simp_all [cacheInsert, cacheLookup]

theorem mem_cacheInsert (x : String × α) (k : String) (v : α) (c : List (String × α))
    (h : x ∈ cacheInsert k v c) : x = (k, v) ∨ x ∈ c := by
  induction c with
  | nil => exact Or.inl (List.mem_singleton.mp h)
  | cons hd tl ih =>
      obtain ⟨k1, v1⟩ := hd
      by_cases h1 : k1 = k
      · rw [show cacheInsert k v ((k1, v1) :: tl) = (k, v) :: tl by
            simp [cacheInsert, h1]] at h
        rcases List.mem_cons.mp h with h2 | h2
        · exact Or.inl h2
        · exact Or.inr (List.mem_cons_of_mem _ h2)
      · rw [show cacheInsert k v ((k1, v1) :: tl) = (k1, v1) :: cacheInsert k v tl by
            simp [cacheInsert, h1]] at h
        rcases List.mem_cons.mp h with h2 | h2
        · exact Or.inr (h2 ▸ List.mem_cons_self _ _)
        · rcases ih h2 with h3 | h3
          · exact Or.inl h3
          · exact Or.inr (List.mem_cons_of_mem _ h3)

theorem cacheKeys_insert_of_mem (k : String) (v : α) (c : List (String × α))
    (h : k ∈ cacheKeys c) : cacheKeys (cacheInsert k v c) = cacheKeys c := by
  induction c with
  | nil => simp [cacheKeys] at h
  | cons hd tl ih =>
      obtain ⟨k1, v1⟩ := hd
      by_cases h1 : k1 = k
      · simp [cacheInsert, h1, cacheKeys]
      · have h2 : k ∈ cacheKeys tl := by
          simp only [cacheKeys, List.map_cons, List.mem_cons] at h
          rcases h with h3 | h3
          · exact absurd h3.symm h1
          · exact h3
        have h3 := ih h2
        simp only [cacheKeys] at h3 ⊢
        simp [cacheInsert, h1, h3]

theorem cacheInsert_of_not_mem (k : String) (v : α) (c : List (String × α))
    (h : k ∉ cacheKeys c) : cacheInsert k v c = c ++ [(k, v)] := by
  induction c with
  | nil => simp [cacheInsert]
  | cons hd tl ih =>
      obtain ⟨k1, v1⟩ := hd
      simp only [cacheKeys, List.map_cons, List.mem_cons, not_or] at h
      have h1 : k1 ≠ k := fun hk => h.1 hk.symm
      simp [cacheInsert, if_neg h1, ih (by simpa [cacheKeys] using h.2)]

theorem cacheKeys_insert_nodup (k : String) (v : α) (c : List (String × α))
    (h : (cacheKeys c).Nodup) : (cacheKeys (cacheInsert k v c)).Nodup := by
  by_cases hm : k ∈ cacheKeys c
  · rw [cacheKeys_insert_of_mem k v c hm]; exact h
  · rw [cacheInsert_of_not_mem k v c hm]
    simp only [cacheKeys, List.map_append, List.map_cons, List.map_nil]
    simp only [cacheKeys] at h hm
    simp [List.nodup_append, h, hm]

theorem cacheKeys_cons (k1 : String) (v1 : α) (tl : List (String × α)) :
    cacheKeys ((k1, v1) :: tl) = k1 :: cacheKeys tl := rfl

theorem cacheLookup_eq_none_iff (q : String) (c : List (String × α)) :
    cacheLookup q c = none ↔ q ∉ cacheKeys c := by
  induction c with
  | nil => simp [cacheLookup, cacheKeys]
  | cons hd tl ih =>
      obtain ⟨k1, v1⟩ := hd
      by_cases h1 : k1 = q
      · subst h1; simp [cacheLookup, cacheKeys]
      · rw [show cacheLookup q ((k1, v1) :: tl) = cacheLookup q tl from by
            simp [cacheLookup, h1],
          ih, cacheKeys_cons, List.mem_cons, not_or]
        exact ⟨fun hn => ⟨fun h2 => h1 h2.symm, hn⟩, fun hn => hn.2⟩

theorem mem_of_cacheLookup (q : String) (v : α) (c : List (String × α))
    (h : cacheLookup q c = some v) : (q, v) ∈ c := by
  induction c with
  | nil => simp [cacheLookup] at h
  | cons hd tl ih =>
      obtain ⟨k1, v1⟩ := hd
      by_cases h1 : k1 = q
      · have h2 : v1 = v := by
          rw [show cacheLookup q ((k1, v1) :: tl) = some v1 by simp [cacheLookup, h1]] at h
          injection h
        subst h2
        subst h1
        exact List.mem_cons_self _ _
      · rw [show cacheLookup q ((k1, v1) :: tl) = cacheLookup q tl by
            simp [cacheLookup, h1]] at h
        exact List.mem_cons_of_mem _ (ih h)

theorem cacheLookup_isSome_of_mem_keys (q : String) (c : List (String × α))
    (h : q ∈ cacheKeys c) : ∃ v, cacheLookup q c = some v := by
  cases hl : cacheLookup q c with
  | none => exact absurd h ((cacheLookup_eq_none_iff q c).mp hl)
  | some v => exact ⟨v, rfl⟩

theorem processPublish_of_none (dec : Bytes → Option Envelope) (st : ProxyState)
    (b : Bytes) (hd : dec b = none) : processPublish dec st b = .panic := by
  simp [processPublish, hd]

theorem processPublish_of_empty (dec : Bytes → Option Envelope) (st : ProxyState)
    (b : Bytes) (e : Envelope) (hd : dec b = some e) (hs : e.service = "") :
    processPublish dec st b = .dropped st := by
  simp [processPublish, hd, hs]

theorem processPublish_of_valid (dec : Bytes → Option Envelope) (st : ProxyState)
    (b : Bytes) (e : Envelope) (hd : dec b = some e) (hs : e.service ≠ "") :
    processPublish dec st b = .sent (pubUpdate e b st) b := by
  simp [processPublish, hd, hs]

theorem runPublishes_cons_dropped (dec : Bytes → Option Envelope) (st st2 : ProxyState)
    (b : Bytes) (rest : List Bytes) (h : processPublish dec st b = .dropped st2) :
    runPublishes dec st (b :: rest) = runPublishes dec st2 rest := by
  simp [runPublishes, h]

theorem runPublishes_cons_sent (dec : Bytes → Option Envelope) (st st2 : ProxyState)
    (b out : Bytes) (rest : List Bytes) (h : processPublish dec st b = .sent st2 out) :
    runPublishes dec st (b :: rest) = runPublishes dec st2 rest := by
  simp [runPublishes, h]

theorem runPublishes_cons_panic (dec : Bytes → Option Envelope) (st : ProxyState)
    (b : Bytes) (rest : List Bytes) (h : processPublish dec st b = .panic) :
    runPublishes dec st (b :: rest) = none := by
  simp [runPublishes, h]

theorem writeSvc_of_none (dec : Bytes → Option Envelope) (b : Bytes) (s : String)
    (hd : dec b = none) : writeSvc dec b s = none := by
  simp [writeSvc, hd]

theorem writeSvc_of_empty (dec : Bytes → Option Envelope) (b : Bytes) (s : String)
    (e : Envelope) (hd : dec b = some e) (hs : e.service = "") :
    writeSvc dec b s = none := by
  simp [writeSvc, hd, hs]

theorem writeMem_of_empty (dec : Bytes → Option Envelope) (b : Bytes) (m : String)
    (e : Envelope) (hd : dec b = some e) (hs : e.service = "") :
    writeMem dec b m = none := by
  simp [writeMem, hd, hs]

theorem run_lookup_svc (dec : Bytes → Option Envelope) (pubs : List Bytes) :
    ∀ (st st1 : ProxyState), runPublishes dec st pubs = some st1 →
      ∀ s, cacheLookup s st1.service_cache =
        orO (lastSvc dec pubs s) (cacheLookup s st.service_cache) := by
  induction pubs with
  | nil =>
      intro st st1 h s
      simp only [runPublishes, Option.some.injEq] at h
      subst h
      simp [lastSvc]
  | cons b rest ih =>
      intro st st1 h s
      cases hd : dec b with
      | none =>
          rw [runPublishes_cons_panic dec st b rest (processPublish_of_none dec st b hd)] at h
          cases h
      | some e =>
          by_cases hs : e.service = ""
          · rw [runPublishes_cons_dropped dec st st b rest
              (processPublish_of_empty dec st b e hd hs)] at h
            rw [ih st st1 h s]
            simp [lastSvc, writeSvc_of_empty dec b s e hd hs]
          · rw [runPublishes_cons_sent dec st (pubUpdate e b st) b b rest
              (processPublish_of_valid dec st b e hd hs)] at h
            rw [ih (pubUpdate e b st) st1 h s]
            have h2 : cacheLookup s (pubUpdate e b st).service_cache =
                if e.service = s then some (e.member_id, b)
                else cacheLookup s st.service_cache := by
              simp [pubUpdate, cacheLookup_insert]
            rw [h2]
            simp only [lastSvc, orO_assoc]
            have h3 : writeSvc dec b s =
                if e.service = s then some (e.member_id, b) else none := by
              simp [writeSvc, hd, hs]
            rw [h3]
            by_cases h4 : e.service = s
            · simp [h4, orO]
            · simp [h4, orO]

theorem run_lookup_mem (dec : Bytes → Option Envelope) (pubs : List Bytes) :
    ∀ (st st1 : ProxyState), runPublishes dec st pubs = some st1 →
      ∀ m, cacheLookup m st1.member_cache =
        orO (lastMem dec pubs m) (cacheLookup m st.member_cache) := by
  induction pubs with
  | nil =>
      intro st st1 h m
      simp only [runPublishes, Option.some.injEq] at h
      subst h
      simp [lastMem]
  | cons b rest ih =>
      intro st st1 h m
      cases hd : dec b with
      | none =>
          rw [runPublishes_cons_panic dec st b rest (processPublish_of_none dec st b hd)] at h
          cases h
      | some e =>
          by_cases hs : e.service = ""
          · rw [runPublishes_cons_dropped dec st st b rest
              (processPublish_of_empty dec st b e hd hs)] at h
            rw [ih st st1 h m]
            simp [lastMem, writeMem_of_empty dec b m e hd hs]
          · rw [runPublishes_cons_sent dec st (pubUpdate e b st) b b rest
              (processPublish_of_valid dec st b e hd hs)] at h
            rw [ih (pubUpdate e b st) st1 h m]
            have h2 : cacheLookup m (pubUpdate e b st).member_cache =
                if e.member_id = m then some (e.service, b)
                else cacheLookup m st.member_cache := by
              simp [pubUpdate, cacheLookup_insert]
            rw [h2]
            simp only [lastMem, orO_assoc]
            have h3 : writeMem dec b m =
                if e.member_id = m then some (e.service, b) else none := by
              simp [writeMem, hd, hs]
            rw [h3]
            by_cases h4 : e.member_id = m
            · simp [h4, orO]
            · simp [h4, orO]


theorem run_nodup (dec : Bytes → Option Envelope) (pubs : List Bytes) :
    ∀ (st st1 : ProxyState), runPublishes dec st pubs = some st1 →
      (cacheKeys st.service_cache).Nodup → (cacheKeys st.member_cache).Nodup →
      (cacheKeys st1.service_cache).Nodup ∧ (cacheKeys st1.member_cache).Nodup := by
  induction pubs with
  | nil =>
      intro st st1 h hs hm
      simp only [runPublishes, Option.some.injEq] at h
      subst h
      exact ⟨hs, hm⟩
  | cons b rest ih =>
      intro st st1 h hs hm
      cases hd : dec b with
      | none =>
          rw [runPublishes_cons_panic dec st b rest (processPublish_of_none dec st b hd)] at h
          cases h
      | some e =>
          by_cases hse : e.service = ""
          · rw [runPublishes_cons_dropped dec st st b rest
              (processPublish_of_empty dec st b e hd hse)] at h
            exact ih st st1 h hs hm
          · rw [runPublishes_cons_sent dec st (pubUpdate e b st) b b rest
              (processPublish_of_valid dec st b e hd hse)] at h
            exact ih (pubUpdate e b st) st1 h
              (cacheKeys_insert_nodup _ _ _ hs) (cacheKeys_insert_nodup _ _ _ hm)

theorem run_coherent (dec : Bytes → Option Envelope) (pubs : List Bytes) :
    ∀ (st st1 : ProxyState), runPublishes dec st pubs = some st1 →
      svcCoherent dec st → memCoherent dec st →
      svcCoherent dec st1 ∧ memCoherent dec st1 := by
  induction pubs with
  | nil =>
      intro st st1 h hs hm
      simp only [runPublishes, Option.some.injEq] at h
      subst h
      exact ⟨hs, hm⟩
  | cons b rest ih =>
      intro st st1 h hs hm
      cases hd : dec b with
      | none =>
          rw [runPublishes_cons_panic dec st b rest (processPublish_of_none dec st b hd)] at h
          cases h
      | some e =>
          by_cases hse : e.service = ""
          · rw [runPublishes_cons_dropped dec st st b rest
              (processPublish_of_empty dec st b e hd hse)] at h
            exact ih st st1 h hs hm
          · rw [runPublishes_cons_sent dec st (pubUpdate e b st) b b rest
              (processPublish_of_valid dec st b e hd hse)] at h
            refine ih (pubUpdate e b st) st1 h ?_ ?_
            · intro x hx
              rcases mem_cacheInsert x _ _ _ hx with h2 | h2
              · subst h2
                exact ⟨e, hd, rfl, rfl, hse⟩
              · exact hs x h2
            · intro x hx
              rcases mem_cacheInsert x _ _ _ hx with h2 | h2
              · subst h2
                exact ⟨e, hd, rfl, rfl, hse⟩
              · exact hm x h2

theorem lastSvc_spec (dec : Bytes → Option Envelope) (pubs : List Bytes) (s mid : String)
    (b : Bytes) (h : lastSvc dec pubs s = some (mid, b)) :
    b ∈ pubs ∧ ∃ e, dec b = some e ∧ e.service = s ∧ e.member_id = mid ∧ e.service ≠ "" := by
  induction pubs with
  | nil => simp [lastSvc] at h
  | cons x rest ih =>
      simp only [lastSvc] at h
      cases hl : lastSvc dec rest s with
      | some v =>
          rw [hl] at h
          simp only [orO_some_left, Option.some.injEq] at h
          subst h
          rcases ih hl with ⟨h1, h2⟩
          exact ⟨List.mem_cons_of_mem _ h1, h2⟩
      | none =>
          rw [hl] at h
          simp only [orO_none_left] at h
          cases hd : dec x with
          | none => rw [writeSvc_of_none dec x s hd] at h; cases h
          | some e =>
              rw [show writeSvc dec x s =
                  if e.service = s ∧ e.service ≠ "" then some (e.member_id, x) else none from by
                simp [writeSvc, hd]] at h
              by_cases hc : e.service = s ∧ e.service ≠ ""
              · rw [if_pos hc] at h
                simp only [Option.some.injEq, Prod.mk.injEq] at h
                rcases h with ⟨h3, h4⟩
                subst h4
                exact ⟨List.mem_cons_self _ _, e, hd, hc.1, h3, hc.2⟩
              · rw [if_neg hc] at h
                cases h

theorem lastMem_spec (dec : Bytes → Option Envelope) (pubs : List Bytes) (m sv : String)
    (b : Bytes) (h : lastMem dec pubs m = some (sv, b)) :
    b ∈ pubs ∧ ∃ e, dec b = some e ∧ e.member_id = m ∧ e.service = sv ∧ e.service ≠ "" := by
  induction pubs with
  | nil => simp [lastMem] at h
  | cons x rest ih =>
      simp only [lastMem] at h
      cases hl : lastMem dec rest m with
      | some v =>
          rw [hl] at h
          simp only [orO_some_left, Option.some.injEq] at h
          subst h
          rcases ih hl with ⟨h1, h2⟩
          exact ⟨List.mem_cons_of_mem _ h1, h2⟩
      | none =>
          rw [hl] at h
          simp only [orO_none_left] at h
          cases hd : dec x with
          | none =>
              rw [show writeMem dec x m = none from by simp [writeMem, hd]] at h
              cases h
          | some e =>
              rw [show writeMem dec x m =
                  if e.member_id = m ∧ e.service ≠ "" then some (e.service, x) else none from by
                simp [writeMem, hd]] at h
              by_cases hc : e.member_id = m ∧ e.service ≠ ""
              · rw [if_pos hc] at h
                simp only [Option.some.injEq, Prod.mk.injEq] at h
                rcases h with ⟨h3, h4⟩
                subst h4
                exact ⟨List.mem_cons_self _ _, e, hd, hc.1, h3, hc.2⟩
              · rw [if_neg hc] at h
                cases h

theorem lastSvc_append (dec : Bytes → Option Envelope) (ps qs : List Bytes) (s : String) :
    lastSvc dec (ps ++ qs) s = orO (lastSvc dec qs s) (lastSvc dec ps s) := by
  induction ps with
  | nil => simp [lastSvc]
  | cons p ps1 ih =>
      rw [List.cons_append]
      show orO (lastSvc dec (ps1 ++ qs) s) (writeSvc dec p s) =
        orO (lastSvc dec qs s) (lastSvc dec (p :: ps1) s)
      rw [ih, orO_assoc]
      rfl

theorem lastMem_append (dec : Bytes → Option Envelope) (ps qs : List Bytes) (m : String) :
    lastMem dec (ps ++ qs) m = orO (lastMem dec qs m) (lastMem dec ps m) := by
  induction ps with
  | nil => simp [lastMem]
  | cons p ps1 ih =>
      rw [List.cons_append]
      show orO (lastMem dec (ps1 ++ qs) m) (writeMem dec p m) =
        orO (lastMem dec qs m) (lastMem dec (p :: ps1) m)
      rw [ih, orO_assoc]
      rfl

theorem lastSvc_snoc (dec : Bytes → Option Envelope) (ps : List Bytes) (x : Bytes) (s : String) :
    lastSvc dec (ps ++ [x]) s = orO (writeSvc dec x s) (lastSvc dec ps s) := by
  rw [lastSvc_append]
  simp [lastSvc]

theorem lastMem_snoc (dec : Bytes → Option Envelope) (ps : List Bytes) (x : Bytes) (m : String) :
    lastMem dec (ps ++ [x]) m = orO (writeMem dec x m) (lastMem dec ps m) := by
  rw [lastMem_append]
  simp [lastMem]

theorem afterLastPubOf_snoc_hit (dec : Bytes → Option Envelope) (m : String)
    (ps : List Bytes) (x : Bytes) (h : isPubBy dec m x = true) :
    afterLastPubOf dec m (ps ++ [x]) = [] := by
  simp [afterLastPubOf, List.takeWhile_cons, h]

theorem afterLastPubOf_snoc_miss (dec : Bytes → Option Envelope) (m : String)
    (ps : List Bytes) (x : Bytes) (h : isPubBy dec m x = false) :
    afterLastPubOf dec m (ps ++ [x]) = afterLastPubOf dec m ps ++ [x] := by
  simp [afterLastPubOf, List.takeWhile_cons, h]

/-- If member `m` only ever publishes to service `s`, its last message is
`(s, b)`, and after that message no message targets `s`, then the last
service-cache write for `s` is exactly `(m, b)`. -/
theorem lastSvc_of_no_later (dec : Bytes → Option Envelope) (pubs : List Bytes)
    (m s : String) (b : Bytes)
    (hv : ∀ x ∈ pubs, validPub dec x = true)
    (hlast : lastMem dec pubs m = some (s, b))
    (honly : ∀ x ∈ pubs, ∀ e, dec x = some e → e.member_id = m → e.service = s)
    (hsince : ∀ x ∈ afterLastPubOf dec m pubs, isPubTo dec s x = false) :
    lastSvc dec pubs s = some (m, b) := by
  induction pubs using List.reverseRecOn with
  | nil => simp [lastMem] at hlast
  | append_singleton ps x ih =>
      have hvx : validPub dec x = true := hv x (by simp)
      cases hd : dec x with
      | none => rw [validPub, hd] at hvx; cases hvx
      | some e =>
          have hse : e.service ≠ "" := by
            rw [validPub, hd] at hvx
            simpa using hvx
          by_cases hby : isPubBy dec m x = true
          · have hmid : e.member_id = m := by
              rw [isPubBy, hd] at hby
              simpa using hby
            have hsx : e.service = s := honly x (by simp) e hd hmid
            have hs2 : s ≠ "" := hsx ▸ hse
            have hwm : writeMem dec x m = some (s, x) := by
              simp [writeMem, hd, hmid, hsx, hs2]
            rw [lastMem_snoc, hwm, orO_some_left, Option.some.injEq, Prod.mk.injEq] at hlast
            obtain ⟨-, hxb⟩ := hlast
            subst hxb
            have hws : writeSvc dec x s = some (m, x) := by
              simp [writeSvc, hd, hsx, hmid, hs2]
            rw [lastSvc_snoc, hws, orO_some_left]
          · have hby2 : isPubBy dec m x = false := by
              cases h2 : isPubBy dec m x
              · rfl
              · exact absurd h2 hby
            have hmid : e.member_id ≠ m := by
              rw [isPubBy, hd] at hby2
              simpa using hby2
            have hto : isPubTo dec s x = false := by
              apply hsince
              rw [afterLastPubOf_snoc_miss dec m ps x hby2]
              simp
            have hsx : e.service ≠ s := by
              rw [isPubTo, hd] at hto
              simpa using hto
            have hwm : writeMem dec x m = none := by
              simp [writeMem, hd, hmid]
            have hws : writeSvc dec x s = none := by
              simp [writeSvc, hd, hsx]
            rw [lastMem_snoc, hwm, orO_none_left] at hlast
            rw [lastSvc_snoc, hws, orO_none_left]
            refine ih (fun y hy => hv y (List.mem_append_left _ hy)) hlast
              (fun y hy e2 hd2 hm2 => honly y (List.mem_append_left _ hy) e2 hd2 hm2) ?_
            intro y hy
            apply hsince
            rw [afterLastPubOf_snoc_miss dec m ps x hby2]
            exact List.mem_append_left _ hy

theorem countP_eq_one_of_key (c : List (String × α)) (p : String × α → Bool) (k : String)
    (hnd : (cacheKeys c).Nodup)
    (hkey : ∀ x ∈ c, p x = true → x.1 = k)
    (hex : ∃ v, (k, v) ∈ c ∧ p (k, v) = true) :
    c.countP p = 1 := by
  induction c with
  | nil =>
      rcases hex with ⟨v, hv, -⟩
      simp at hv
  | cons hd tl ih =>
      obtain ⟨k1, v1⟩ := hd
      rw [cacheKeys_cons] at hnd
      have hnd1 : k1 ∉ cacheKeys tl := (List.nodup_cons.mp hnd).1
      have hnd2 : (cacheKeys tl).Nodup := (List.nodup_cons.mp hnd).2
      cases hp : p (k1, v1) with
      | true =>
          have hk1 : k1 = k := hkey (k1, v1) (List.mem_cons_self _ _) hp
          have hz : tl.countP p = 0 := by
            rw [List.countP_eq_zero]
            intro x hx hpx
            have h2 : x.1 = k := hkey x (List.mem_cons_of_mem _ hx) hpx
            exact hnd1 (by
              rw [hk1, ← h2]
              exact List.mem_map_of_mem Prod.fst hx)
          simp [List.countP_cons, hp, hz]
      | false =>
          rw [List.countP_cons]
          simp only [hp, if_false, Nat.add_zero, Bool.false_eq_true]
          apply ih hnd2
          · intro x hx hpx
            exact hkey x (List.mem_cons_of_mem _ hx) hpx
          · rcases hex with ⟨v, hv, hpv⟩
            rcases List.mem_cons.mp hv with h2 | h2
            · exact absurd (h2 ▸ hpv) (by simp [hp])
            · exact ⟨v, h2, hpv⟩

theorem count_map_eq_countP (f : α → Bytes) (l : List α) (b : Bytes) :
    (l.map f).count b = l.countP (fun x => f x == b) := by
  show (l.map f).countP (· == b) = _
  rw [List.countP_map]
  rfl

theorem snapshot_count (st : ProxyState) (b : Bytes) :
    (snapshotMessages st).count b =
      st.service_cache.countP (fun x => x.2.2 == b) +
        (st.member_cache.filter
          (fun x => !((membersEncountered st).contains x.1))).countP
          (fun x => x.2.2 == b) := by
  rw [snapshotMessages, List.count_append, count_map_eq_countP, count_map_eq_countP]

theorem nodup_length_le_dedup (l l2 : List String) (h : l.Nodup)
    (hs : ∀ x ∈ l, x ∈ l2) : l.length ≤ l2.dedup.length := by
  have h1 : l.toFinset.card = l.length := List.toFinset_card_of_nodup h
  have h2 : l2.toFinset.card = l2.dedup.length := List.card_toFinset l2
  have h3 : l.toFinset ⊆ l2.toFinset := by
    intro a ha
    rw [List.mem_toFinset] at ha ⊢
    exact hs a ha
  calc l.length = l.toFinset.card := h1.symm
    _ ≤ l2.toFinset.card := Finset.card_le_card h3
    _ = l2.dedup.length := h2

/-- C7: after any aborted-free run from the empty state, every cache holds
exactly the most recent valid write for its key: the service-cache lookup
is the last service write, the member-cache lookup is the last member
write, a cached service has exactly one entry, and in particular after two
valid publishes to the same service that service's single entry holds the
second envelope's member and bytes. -/
theorem c7_cache_overwrite (dec : Bytes → Option Envelope) (pubs : List Bytes)
    (st : ProxyState) (hrun : runPublishes dec emptyState pubs = some st) :
    (∀ s, cacheLookup s st.service_cache = lastSvc dec pubs s) ∧
      (∀ m, cacheLookup m st.member_cache = lastMem dec pubs m) ∧
      (∀ s v, cacheLookup s st.service_cache = some v →
        st.service_cache.countP (fun x => x.1 == s) = 1) ∧
      (∀ b1 b2 e1 e2, pubs = [b1, b2] → dec b1 = some e1 → dec b2 = some e2 →
        e1.service = e2.service → e2.service ≠ "" →
        cacheLookup e2.service st.service_cache = some (e2.member_id, b2)) := by
  have hsvc : ∀ s, cacheLookup s st.service_cache = lastSvc dec pubs s := by
    intro s
    rw [run_lookup_svc dec pubs emptyState st hrun s]
    simp [emptyState, cacheLookup]
  have hmem : ∀ m, cacheLookup m st.member_cache = lastMem dec pubs m := by
    intro m
    rw [run_lookup_mem dec pubs emptyState st hrun m]
    simp [emptyState, cacheLookup]
  have hnd : (cacheKeys st.service_cache).Nodup :=
    (run_nodup dec pubs emptyState st hrun (by simp [emptyState, cacheKeys])
      (by simp [emptyState, cacheKeys])).1
  refine ⟨hsvc, hmem, ?_, ?_⟩
  · intro s v hl
    apply countP_eq_one_of_key st.service_cache _ s hnd
    · intro x _ hpx
      simpa using hpx
    · exact ⟨v, mem_of_cacheLookup s v _ hl, by simp⟩
  · intro b1 b2 e1 e2 hp hd1 hd2 hsame hne
    rw [hsvc e2.service, hp]
    have hw2 : writeSvc dec b2 e2.service = some (e2.member_id, b2) := by
      simp [writeSvc, hd2, hne]
    simp [lastSvc, hw2, orO]

/-- C2 counterexample: member `m1` publishes to service `A` (bytes `[1]`)
and then to service `s` (bytes `[2]`, its most recent message); member `m2`
then publishes to `s` (bytes `[3]`).  The service cache then holds `A ↦
(m1,[1])` and `s ↦ (m2,[3])`, so the snapshot dedup marks `m1` as already
encountered and suppresses its member-cache entry: `m1`'s most recent bytes
`[2]` are in no snapshot message, refuting the claim's recency guarantee. -/
theorem c2_counterexample :
    runPublishes sampleDec emptyState [[1], [2], [3]] =
      some ⟨[("A", ("m1", [1])), ("s", ("m2", [3]))],
            [("m1", ("s", [2])), ("m2", ("s", [3]))]⟩ ∧
      lastMem sampleDec [[1], [2], [3]] "m1" = some ("s", [2]) ∧
      [2] ∉ snapshotMessages
        ⟨[("A", ("m1", [1])), ("s", ("m2", [3]))],
         [("m1", ("s", [2])), ("m2", ("s", [3]))]⟩ := by
  decide

/-- C2 amended: over any abort-free run of valid publishes from the empty
state, a subscribe event sends at most `S + M` messages (`S`, `M` the
distinct services and members of the sequence); every member that has
published has at least one of its own messages in the snapshot; and a
member not recorded in any service-cache entry gets exactly its most
recent bytes. -/
theorem c2_snapshot_bound (dec : Bytes → Option Envelope) (pubs : List Bytes)
    (st : ProxyState)
    (hv : ∀ x ∈ pubs, validPub dec x = true)
    (hrun : runPublishes dec emptyState pubs = some st) :
    (snapshotMessages st).length ≤
        (distinctServices dec pubs).length + (distinctMembers dec pubs).length ∧
      (∀ m sv b, lastMem dec pubs m = some (sv, b) →
        ∃ b2 ∈ snapshotMessages st, ∃ e, dec b2 = some e ∧ e.member_id = m) ∧
      (∀ m sv b, lastMem dec pubs m = some (sv, b) → m ∉ membersEncountered st →
        b ∈ snapshotMessages st) := by
  have hsvc : ∀ s, cacheLookup s st.service_cache = lastSvc dec pubs s := by
    intro s
    rw [run_lookup_svc dec pubs emptyState st hrun s]
    simp [emptyState, cacheLookup]
  have hmem : ∀ m, cacheLookup m st.member_cache = lastMem dec pubs m := by
    intro m
    rw [run_lookup_mem dec pubs emptyState st hrun m]
    simp [emptyState, cacheLookup]
  have hnd := run_nodup dec pubs emptyState st hrun
    (by simp [cacheKeys, emptyState]) (by simp [cacheKeys, emptyState])
  have hcoh := run_coherent dec pubs emptyState st hrun
    (by simp [svcCoherent, emptyState]) (by simp [memCoherent, emptyState])
  have hpart3 : ∀ m sv b, lastMem dec pubs m = some (sv, b) →
      m ∉ membersEncountered st → b ∈ snapshotMessages st := by
    intro m sv b hlast hm
    have hl : cacheLookup m st.member_cache = some (sv, b) := by
      rw [hmem m, hlast]
    have hfil : (m, (sv, b)) ∈ st.member_cache.filter
        (fun x => !((membersEncountered st).contains x.1)) := by
      rw [List.mem_filter]
      refine ⟨mem_of_cacheLookup m (sv, b) _ hl, by simpa using hm⟩
    exact List.mem_append_right _ (List.mem_map_of_mem (fun x => x.2.2) hfil)
  refine ⟨?_, ?_, hpart3⟩
  · have hlen : (snapshotMessages st).length =
        st.service_cache.length +
          (st.member_cache.filter
            (fun x => !((membersEncountered st).contains x.1))).length := by
      simp [snapshotMessages]
    have hsvclen : st.service_cache.length ≤ (distinctServices dec pubs).length := by
      have hkeylen : st.service_cache.length = (cacheKeys st.service_cache).length := by
        simp [cacheKeys]
      rw [hkeylen]
      apply nodup_length_le_dedup _ _ hnd.1
      intro k hk
      obtain ⟨v, hv2⟩ := cacheLookup_isSome_of_mem_keys k _ hk
      rw [hsvc k] at hv2
      obtain ⟨hbp, e, hde, hes, -, -⟩ := lastSvc_spec dec pubs k v.1 v.2 (by
        rw [hv2])
      rw [List.mem_filterMap]
      exact ⟨v.2, hbp, by rw [hde]; simp [hes]⟩
    have hmemlen : st.member_cache.length ≤ (distinctMembers dec pubs).length := by
      have hkeylen : st.member_cache.length = (cacheKeys st.member_cache).length := by
        simp [cacheKeys]
      rw [hkeylen]
      apply nodup_length_le_dedup _ _ hnd.2
      intro k hk
      obtain ⟨v, hv2⟩ := cacheLookup_isSome_of_mem_keys k _ hk
      rw [hmem k] at hv2
      obtain ⟨hbp, e, hde, hem, -, -⟩ := lastMem_spec dec pubs k v.1 v.2 (by
        rw [hv2])
      rw [List.mem_filterMap]
      exact ⟨v.2, hbp, by rw [hde]; simp [hem]⟩
    calc (snapshotMessages st).length
        = st.service_cache.length + _ := hlen
      _ ≤ st.service_cache.length + st.member_cache.length := by
          exact Nat.add_le_add_left (List.length_filter_le _ _) _
      _ ≤ (distinctServices dec pubs).length + (distinctMembers dec pubs).length :=
          Nat.add_le_add hsvclen hmemlen
  · intro m sv b hlast
    by_cases hm : m ∈ membersEncountered st
    · obtain ⟨x, hx, hxm⟩ := List.mem_map.mp hm
      obtain ⟨e, he1, -, he3, -⟩ := hcoh.1 x hx
      refine ⟨x.2.2, List.mem_append_left _ (List.mem_map_of_mem (fun y => y.2.2) hx),
        e, he1, by rw [he3, hxm]⟩
    · obtain ⟨-, e, hde, hem, -, -⟩ := lastMem_spec dec pubs m sv b hlast
      exact ⟨b, hpart3 m sv b hlast hm, e, hde, hem⟩

/-- C5: if member `m` only ever publishes to the single service `s`, its
most recent message carries bytes `b`, and no message after `m`'s last one
targets `s`, then a snapshot contains `b` exactly once — once from the
service cache, with the member-cache copy suppressed by the dedup set. -/
theorem c5_single_service_member_once (dec : Bytes → Option Envelope)
    (pubs : List Bytes) (st : ProxyState) (m s : String) (b : Bytes)
    (hv : ∀ x ∈ pubs, validPub dec x = true)
    (hrun : runPublishes dec emptyState pubs = some st)
    (hlast : lastMem dec pubs m = some (s, b))
    (honly : ∀ x ∈ pubs, ∀ e, dec x = some e → e.member_id = m → e.service = s)
    (hsince : ∀ x ∈ afterLastPubOf dec m pubs, isPubTo dec s x = false) :
    (snapshotMessages st).count b = 1 := by
  have hsvc : lastSvc dec pubs s = some (m, b) :=
    lastSvc_of_no_later dec pubs m s b hv hlast honly hsince
  have hlk : cacheLookup s st.service_cache = some (m, b) := by
    rw [run_lookup_svc dec pubs emptyState st hrun s, hsvc]
    rfl
  have hnd := run_nodup dec pubs emptyState st hrun
    (by simp [cacheKeys, emptyState]) (by simp [cacheKeys, emptyState])
  have hcoh := run_coherent dec pubs emptyState st hrun
    (by simp [svcCoherent, emptyState]) (by simp [memCoherent, emptyState])
  obtain ⟨-, e, hde, hes, hem, -⟩ := lastSvc_spec dec pubs s m b hsvc
  have h1 : st.service_cache.countP (fun x => x.2.2 == b) = 1 := by
    apply countP_eq_one_of_key st.service_cache _ s hnd.1
    · intro x hx hpx
      have hxb : x.2.2 = b := by simpa using hpx
      obtain ⟨e2, he1, he2, -, -⟩ := hcoh.1 x hx
      rw [hxb, hde] at he1
      injection he1 with he3
      rw [← he2, ← he3]
      exact hes
    · exact ⟨(m, b), mem_of_cacheLookup s (m, b) _ hlk, by simp⟩
  have h2 : (st.member_cache.filter
      (fun x => !((membersEncountered st).contains x.1))).countP
      (fun x => x.2.2 == b) = 0 := by
    rw [List.countP_eq_zero]
    intro x hx hpx
    have hxb : x.2.2 = b := by simpa using hpx
    obtain ⟨hx1, hx2⟩ := List.mem_filter.mp hx
    obtain ⟨e2, he1, he2, -, -⟩ := hcoh.2 x hx1
    rw [hxb, hde] at he1
    injection he1 with he3
    have hx1m : x.1 = m := by
      rw [← he2, ← he3]
      exact hem
    have hmenc : m ∈ membersEncountered st :=
      List.mem_map_of_mem (fun y => y.2.1) (mem_of_cacheLookup s (m, b) _ hlk)
    rw [hx1m] at hx2
    simp at hx2
    exact hx2 hmenc
  rw [snapshot_count, h1, h2]

/-- C5 witness: one publish by `m1` to `redis` with bytes `[4]`; the
snapshot contains `[4]` exactly once. -/
theorem c5_single_service_member_once_witness :
    (snapshotMessages ⟨[("redis", ("m1", [4]))], [("m1", ("redis", [4]))]⟩).count [4] = 1 :=
  c5_single_service_member_once sampleDec [[4]]
    ⟨[("redis", ("m1", [4]))], [("m1", ("redis", [4]))]⟩ "m1" "redis" [4]
    (by decide) (by decide) (by decide)
    (by
      intro x hx e hde hm
      simp only [List.mem_singleton] at hx
      subst hx
      injection hde with h
      subst h
      rfl)
    (by decide)

/-- C2 amended witness: the three-publish counterexample run satisfies the
amended bound: its snapshot has at most `S + M` messages. -/
theorem c2_snapshot_bound_witness :
    (snapshotMessages ⟨[("A", ("m1", [1])), ("s", ("m2", [3]))],
        [("m1", ("s", [2])), ("m2", ("s", [3]))]⟩).length ≤
      (distinctServices sampleDec [[1], [2], [3]]).length +
        (distinctMembers sampleDec [[1], [2], [3]]).length :=
  (c2_snapshot_bound sampleDec [[1], [2], [3]]
    ⟨[("A", ("m1", [1])), ("s", ("m2", [3]))],
     [("m1", ("s", [2])), ("m2", ("s", [3]))]⟩
    (by decide) (by decide)).1

/-- C7 witness: two publishes to service `s` (bytes `[2]` from `m1`, then
bytes `[3]` from `m2`) leave the single service entry `(m2, [3])`. -/
theorem c7_cache_overwrite_witness :
    cacheLookup "s"
        (ProxyState.mk [("s", ("m2", [3]))]
          [("m1", ("s", [2])), ("m2", ("s", [3]))]).service_cache =
      some ("m2", [3]) :=
  (c7_cache_overwrite sampleDec [[2], [3]]
    ⟨[("s", ("m2", [3]))], [("m1", ("s", [2])), ("m2", ("s", [3]))]⟩
    (by decide)).2.2.2 [2] [3] ⟨"m1", "s", 2, []⟩ ⟨"m2", "s", 3, []⟩
    rfl (by decide) (by decide) rfl (by decide)

/-- C8: the claim says per-connection transport errors on receive or send
are recoverable, affect only that connection, and the loop continues.  In
the source every transport Result is met with `.unwrap()`, so a surfaced
transport error at any of the five sites — inbound recv, rebroadcast send,
control recv, or a snapshot send — aborts the whole process: the iteration
ends in `panicked`, never in a `next` state. -/
theorem c8_transport_error_aborts (dec : Bytes → Option Envelope)
    (sendOk : Bytes → Bool) (st : ProxyState) (ctrlEvt : Option TransportResult)
    (b : Bytes) (e : Envelope) :
    serveStepT dec sendOk st true (some .err) ctrlEvt = .panicked ∧
      serveStepT dec sendOk st true none (some .err) = .panicked ∧
      (dec b = some e → e.service ≠ "" → sendOk b = false →
        serveStepT dec sendOk st true (some (.ok b)) ctrlEvt = .panicked) ∧
      (¬(snapshotMessages st).all sendOk = true →
        serveStepT dec sendOk st true none (some (.ok (1 :: b))) = .panicked) := by
  refine ⟨?_, ?_, ?_, ?_⟩
  · simp [serveStepT, processPublishT]
  · simp [serveStepT, afterControlT, processControlT]
  · intro h1 h2 h3
    simp [serveStepT, processPublishT, h1, h2, h3]
  · intro h1
    simp [serveStepT, afterControlT, processControlT, h1]

/-- C8 witness: with every send failing, the valid message `[1]` makes the
rebroadcast send unwrap abort the iteration, and a subscribe record with a
non-empty snapshot makes the first snapshot send unwrap abort it. -/
theorem c8_transport_error_aborts_witness :
    serveStepT sampleDec (fun x => false) emptyState true
        (some (TransportResult.ok [1])) none = .panicked ∧
      serveStepT sampleDec (fun x => false)
        ⟨[("A", ("m1", [1]))], [("m1", ("A", [1]))]⟩ true none
        (some (TransportResult.ok [1, 9])) = .panicked :=
  ⟨(c8_transport_error_aborts sampleDec (fun x => false) emptyState none
      [1] ⟨"m1", "A", 1, []⟩).2.2.1 rfl (by decide) rfl,
   (c8_transport_error_aborts sampleDec (fun x => false)
      ⟨[("A", ("m1", [1]))], [("m1", ("A", [1]))]⟩ none
      [9] ⟨"m1", "A", 1, []⟩).2.2.2 (by decide)⟩
